import Mathlib

/-!
Verification of the episode remove-and-reindex tool
(`remove_and_reindex_episodes.py`).

The tool mutates a dataset directory tree: it deletes the tabular
(parquet) file and the per-camera video files of every episode index in a
caller-supplied removal list, renames each surviving file from index `i`
to `i - decrement(i)` where `decrement(i)` counts removed indices strictly
below `i`, rewrites the two metadata record streams with the same
renumbering, and decrements the `total_episodes` counter.

Embedding choices:
* A directory is a `List (ℕ × ℕ)`: one entry per file, the first
  component is the episode index encoded in the filename, the second an
  abstract content tag.  A real directory never holds two files with the
  same name; theorems that need this assume `(keyList d).Nodup`.
* Python's `sorted(...)` is modelled by `List.insertionSort (· ≤ ·)`,
  which returns the same (unique) ascending enumeration as Python's sort
  on the lists involved, and `sorted(set(l))` by sorting `l.dedup`.
* A metadata record is a pair `(episode_index, payload)`; the payload
  stands for all other JSON fields, preserved verbatim by the tool.
* `total_episodes` is an integer (`ℤ`), as Python integers are unbounded
  and the counter can be driven below zero.
* `Path.rename` overwrites an existing destination (POSIX semantics), so
  `renameFile` drops any entry already at the destination index.  The
  source's unconditional parquet rename is only ever executed with the
  source file present (its index comes from the directory listing), which
  is where the total model below agrees with it.
-/

namespace LeRobot

/-- A directory: one list entry per file, `(index encoded in filename,
content tag)`. -/
abbrev Dir : Type := List (ℕ × ℕ)

/-- The episode indices encoded in the filenames of `d`, as a list (the
directory listing). -/
def keyList (d : Dir) : List ℕ := d.map Prod.fst

/-- The set of episode indices encoded in the filenames of `d`. -/
def keys (d : Dir) : Finset ℕ := (keyList d).toFinset

/-- Delete the file with index `ep` if present; models
`if ep_file.exists(): ep_file.unlink()`. -/
def unlinkFile (d : Dir) (ep : ℕ) : Dir := d.filter (fun p => p.1 ≠ ep)

/-- Rename the file with index `src` to index `dst`, overwriting any file
already at `dst` (POSIX `Path.rename` semantics).  If no file has index
`src`, the result keeps no file at `dst`; the tool only reaches this
operation with `src` present. -/
def renameFile (d : Dir) (src dst : ℕ) : Dir :=
  d.filter (fun p => p.1 ≠ src ∧ p.1 ≠ dst) ++
    (d.filter (fun p => p.1 = src)).map (fun p => (dst, p.2))

/-- Rename guarded by a source-existence check; models
`if vsrc.exists(): vsrc.rename(vdst)`. -/
def renameIfExists (d : Dir) (src dst : ℕ) : Dir :=
  if src ∈ keyList d then renameFile d src dst else d

/-- Models Python's `sorted(set(l))`: the ascending list of the distinct
elements of `l`. -/
def dedupSorted (l : List ℕ) : List ℕ := List.insertionSort (· ≤ ·) l.dedup

/-- Models `sum(1 for r in episodes_to_remove if r < idx)` (lines 48 and
75 of the source): the number of entries of `removal` strictly below
`i`. -/
def decrement (removal : List ℕ) (i : ℕ) : ℕ :=
  (removal.filter (fun r => r < i)).length

/-- The new index assigned to a surviving old index `i`:
`new_idx = idx - decrement` (line 49 of the source). -/
def newIndex (removal : List ℕ) (i : ℕ) : ℕ := i - decrement removal i

/-- The mutable dataset state: the tabular directory `data/chunk-000`,
the two camera-view video directories, the two metadata record streams
(`episodes.jsonl`, `episodes_stats.jsonl`) and the `total_episodes`
counter of `info.json`.  Stream payloads (`α`, `β`) stand for the other
JSON fields of each record. -/
structure DState (α β : Type) where
  data : Dir
  laptop : Dir
  phone : Dir
  episodes : List (ℕ × α)
  episodesStats : List (ℕ × β)
  total_episodes : ℤ

/-- Step 1 of the source (lines 30-39): for each index in the removal
list, delete the tabular file and the file in each camera-view directory,
when present. -/
def removeFiles {α β : Type} (removal : List ℕ) (s : DState α β) : DState α β :=
  removal.foldl
    (fun st ep =>
      { st with
        data := unlinkFile st.data ep
        laptop := unlinkFile st.laptop ep
        phone := unlinkFile st.phone ep })
    s

/-- The body of the rename loop (lines 47-63): compute the new index; if
it differs, rename the tabular file unconditionally and each camera-view
file when present. -/
def renameStep {α β : Type} (removal : List ℕ) (st : DState α β) (idx : ℕ) :
    DState α β :=
  let newIdx := newIndex removal idx
  if newIdx ≠ idx then
    { st with
      data := renameFile st.data idx newIdx
      laptop := renameIfExists st.laptop idx newIdx
      phone := renameIfExists st.phone idx newIdx }
  else st

/-- Line 42-43 of the source: the sorted list of episode indices parsed
from the current tabular directory listing. -/
def allIndices {α β : Type} (st : DState α β) : List ℕ :=
  List.insertionSort (· ≤ ·) (keyList st.data)

/-- Step 2 of the source (lines 40-63): iterate the rename step over the
sorted tabular indices captured once before the loop. -/
def renamePhase {α β : Type} (removal : List ℕ) (st : DState α β) : DState α β :=
  (allIndices st).foldl (renameStep removal) st

/-- Step 3 of the source for one metadata stream (lines 66-81): drop
records whose `episode_index` is in the removal set, renumber the kept
ones, keep everything else and the record order. -/
def rewriteStream {α : Type} (removal : List ℕ) (stream : List (ℕ × α)) :
    List (ℕ × α) :=
  stream.filterMap
    (fun e => if e.1 ∈ removal then none else some (newIndex removal e.1, e.2))

/-- The whole `remove_and_reindex` function (lines 20-89): deduplicate
and sort the removal list, delete files, rename survivors, rewrite both
metadata streams, subtract the removal-list length from
`total_episodes`. -/
def remove_and_reindex {α β : Type} (s : DState α β)
    (episodes_to_remove : List ℕ) : DState α β :=
  let removal := dedupSorted episodes_to_remove
  let s1 := removeFiles removal s
  let s2 := renamePhase removal s1
  { s2 with
    episodes := rewriteStream removal s2.episodes
    episodesStats := rewriteStream removal s2.episodesStats
    total_episodes := s2.total_episodes - removal.length }

/-! ### Concrete sample datasets

These instantiate the theorems below at concrete inputs.  Content tags
are arbitrary distinct numbers standing for file contents and record
payloads. -/

/-- A dense five-episode dataset. -/
def sampleC1 : DState ℕ ℕ where
  data := [(0, 10), (1, 11), (2, 12), (3, 13), (4, 14)]
  laptop := [(0, 20), (1, 21), (2, 22), (3, 23), (4, 24)]
  phone := [(0, 30), (1, 31), (2, 32), (3, 33), (4, 34)]
  episodes := [(0, 40), (1, 41), (2, 42), (3, 43), (4, 44)]
  episodesStats := [(0, 50), (1, 51), (2, 52), (3, 53), (4, 54)]
  total_episodes := 5

/-- The tabular directory as it stands after deleting episodes 1 and 3
from a dense five-episode dataset: survivors `{0, 2, 4}`. -/
def sampleC5 : DState ℕ ℕ where
  data := [(0, 10), (2, 12), (4, 14)]
  laptop := []
  phone := []
  episodes := []
  episodesStats := []
  total_episodes := 3

/-- A three-episode dataset where episode 1 exists on disk (with a
laptop video) and episode 5 does not. -/
def sampleC4 : DState ℕ ℕ where
  data := [(0, 10), (1, 11), (2, 12)]
  laptop := [(1, 21)]
  phone := []
  episodes := [(0, 40), (1, 41), (2, 42)]
  episodesStats := [(0, 50), (1, 51), (2, 52)]
  total_episodes := 3

/-- A gapped tabular directory (indices `{0, 2}`): index 1 has no file
on disk. -/
def sampleC9gap : DState ℕ ℕ where
  data := [(0, 10), (2, 12)]
  laptop := []
  phone := []
  episodes := [(0, 40), (2, 42)]
  episodesStats := [(0, 50), (2, 52)]
  total_episodes := 2

/-- A dataset with tabular files `{0, 2}` and laptop videos at `{1, 2, 5}`:
the videos at 1 and 5 have no tabular counterpart. -/
def sampleC10 : DState ℕ ℕ where
  data := [(0, 100), (2, 102)]
  laptop := [(1, 201), (2, 202), (5, 205)]
  phone := []
  episodes := [(0, 40), (2, 42)]
  episodesStats := [(0, 50), (2, 52)]
  total_episodes := 2

/-! ### Basic lemmas about directories and keys -/

lemma mem_keyList {d : Dir} {x : ℕ} : x ∈ keyList d ↔ ∃ c, (x, c) ∈ d := by
  simp only [keyList, List.mem_map, Prod.exists]
  constructor
  · rintro ⟨a, b, hm, rfl⟩
    exact ⟨b, hm⟩
  · rintro ⟨c, hm⟩
    exact ⟨x, c, hm, rfl⟩

lemma mem_keys {d : Dir} {x : ℕ} : x ∈ keys d ↔ ∃ c, (x, c) ∈ d := by
  simp only [keys, List.mem_toFinset, mem_keyList]

/-! ### The removal list after `sorted(set(...))` -/

lemma dedupSorted_nodup (l : List ℕ) : (dedupSorted l).Nodup :=
  ((List.perm_insertionSort _ _).nodup_iff).mpr l.nodup_dedup

lemma dedupSorted_sorted (l : List ℕ) : (dedupSorted l).Sorted (· ≤ ·) :=
  List.sorted_insertionSort _ _

lemma mem_dedupSorted {l : List ℕ} {x : ℕ} : x ∈ dedupSorted l ↔ x ∈ l := by
  rw [dedupSorted, List.mem_insertionSort, List.mem_dedup]

lemma dedupSorted_toFinset (l : List ℕ) : (dedupSorted l).toFinset = l.toFinset := by
  ext x
  simp [mem_dedupSorted]

lemma dedupSorted_length (l : List ℕ) :
    (dedupSorted l).length = l.toFinset.card := by
  rw [dedupSorted, List.length_insertionSort, List.card_toFinset]

/-! ### The decrement formula -/

lemma decrement_mono (removal : List ℕ) {i j : ℕ} (h : i ≤ j) :
    decrement removal i ≤ decrement removal j := by
  simp only [decrement, ← List.countP_eq_length_filter]
  exact List.countP_mono_left fun r _ hr => by
    exact decide_eq_true (lt_of_lt_of_le (of_decide_eq_true hr) h)

lemma decrement_eq_card {removal : List ℕ} (hnd : removal.Nodup) (i : ℕ) :
    decrement removal i = (removal.toFinset.filter (· < i)).card := by
  have hfil : (removal.filter (fun r => r < i)).Nodup := hnd.filter _
  rw [decrement, ← List.toFinset_card_of_nodup hfil, List.toFinset_filter]
  congr 1
  apply Finset.filter_congr
  intro x _
  simp

lemma decrement_le_self {removal : List ℕ} (hnd : removal.Nodup) (i : ℕ) :
    decrement removal i ≤ i := by
  rw [decrement_eq_card hnd]
  calc (removal.toFinset.filter (· < i)).card
      ≤ (Finset.range i).card := by
        apply Finset.card_le_card
        intro x hx
        simp only [Finset.mem_filter] at hx
        exact Finset.mem_range.mpr hx.2
    _ = i := Finset.card_range i

/-- The key arithmetic fact behind collision freedom: the new index is
strictly monotone at any surviving (non-removed) index, with no
assumption on the right-hand index. -/
lemma newIndex_lt_of_lt {removal : List ℕ} (hnd : removal.Nodup) {i j : ℕ}
    (hi : i ∉ removal) (hij : i < j) :
    newIndex removal i < newIndex removal j := by
  have hile := decrement_le_self hnd i
  have hsub : removal.toFinset.filter (· < i) ⊆ removal.toFinset.filter (· < j) := by
    intro x hx
    simp only [Finset.mem_filter] at hx ⊢
    exact ⟨hx.1, lt_trans hx.2 hij⟩
  have hgap : (removal.toFinset.filter (· < j)).card
      ≤ (removal.toFinset.filter (· < i)).card + (j - i - 1) := by
    have hdecomp := Finset.card_sdiff_add_card_eq_card hsub
    have hsd : (removal.toFinset.filter (· < j)) \ (removal.toFinset.filter (· < i))
        ⊆ (Finset.Ico i j).erase i := by
      intro x hx
      simp only [Finset.mem_sdiff, Finset.mem_filter, not_and, not_lt] at hx
      have hxr : x ∈ removal.toFinset := hx.1.1
      have hxi : i ≤ x := hx.2 hxr
      have hxne : x ≠ i := by
        rintro rfl
        exact hi (List.mem_toFinset.mp hxr)
      exact Finset.mem_erase.mpr ⟨hxne, Finset.mem_Ico.mpr ⟨hxi, hx.1.2⟩⟩
    have hcard : ((removal.toFinset.filter (· < j)) \
        (removal.toFinset.filter (· < i))).card ≤ j - i - 1 := by
      calc ((removal.toFinset.filter (· < j)) \ (removal.toFinset.filter (· < i))).card
          ≤ ((Finset.Ico i j).erase i).card := Finset.card_le_card hsd
        _ = (Finset.Ico i j).card - 1 :=
            Finset.card_erase_of_mem (Finset.mem_Ico.mpr ⟨le_refl i, hij⟩)
        _ = j - i - 1 := by rw [Nat.card_Ico]
    omega
  have h1 : decrement removal i ≤ i := hile
  have h2 : decrement removal j ≤ decrement removal i + (j - i - 1) := by
    rw [decrement_eq_card hnd, decrement_eq_card hnd]
    exact hgap
  simp only [newIndex]
  omega

lemma newIndex_le_self (removal : List ℕ) (i : ℕ) : newIndex removal i ≤ i :=
  Nat.sub_le _ _

/-- Injectivity of the remap on any set of surviving indices. -/
lemma newIndex_injOn {removal : List ℕ} (hnd : removal.Nodup) {i j : ℕ}
    (hi : i ∉ removal) (hj : j ∉ removal)
    (h : newIndex removal i = newIndex removal j) : i = j := by
  rcases lt_trichotomy i j with hlt | heq | hgt
  · exact absurd h (Nat.ne_of_lt (newIndex_lt_of_lt hnd hi hlt))
  · exact heq
  · exact absurd h.symm (Nat.ne_of_lt (newIndex_lt_of_lt hnd hj hgt))

/-! ### The deletion phase -/

lemma removeFiles_eq {α β : Type} (removal : List ℕ) (s : DState α β) :
    removeFiles removal s =
      { s with
        data := s.data.filter (fun p => p.1 ∉ removal)
        laptop := s.laptop.filter (fun p => p.1 ∉ removal)
        phone := s.phone.filter (fun p => p.1 ∉ removal) } := by
  induction removal generalizing s with
  | nil =>
    simp [removeFiles]
  | cons r rs ih =>
    show removeFiles rs _ = _
    rw [ih]
    have hdir : ∀ d : Dir,
        (unlinkFile d r).filter (fun p => p.1 ∉ rs) =
          d.filter (fun p => p.1 ∉ r :: rs) := by
      intro d
      rw [unlinkFile, List.filter_filter]
      apply List.filter_congr
      intro p _
      by_cases h1 : p.1 = r <;> by_cases h2 : p.1 ∈ rs <;> simp [h1, h2]
    simp only [hdir]

/-! ### Frame lemmas for the rename fold -/

lemma foldl_renameStep_episodes {α β : Type} (removal : List ℕ) (L : List ℕ)
    (st : DState α β) :
    (L.foldl (renameStep removal) st).episodes = st.episodes := by
  induction L generalizing st with
  | nil => rfl
  | cons idx l ih =>
    rw [List.foldl_cons, ih]
    rw [renameStep]
    split <;> rfl

lemma foldl_renameStep_episodesStats {α β : Type} (removal : List ℕ) (L : List ℕ)
    (st : DState α β) :
    (L.foldl (renameStep removal) st).episodesStats = st.episodesStats := by
  induction L generalizing st with
  | nil => rfl
  | cons idx l ih =>
    rw [List.foldl_cons, ih]
    rw [renameStep]
    split <;> rfl

lemma foldl_renameStep_total {α β : Type} (removal : List ℕ) (L : List ℕ)
    (st : DState α β) :
    (L.foldl (renameStep removal) st).total_episodes = st.total_episodes := by
  induction L generalizing st with
  | nil => rfl
  | cons idx l ih =>
    rw [List.foldl_cons, ih]
    rw [renameStep]
    split <;> rfl

/-! ### Field descriptions of the whole run -/

lemma remove_and_reindex_total {α β : Type} (s : DState α β) (input : List ℕ) :
    (remove_and_reindex s input).total_episodes =
      s.total_episodes - (dedupSorted input).length := by
  rw [remove_and_reindex]
  simp only [renamePhase, foldl_renameStep_total, removeFiles_eq]

lemma remove_and_reindex_episodes {α β : Type} (s : DState α β) (input : List ℕ) :
    (remove_and_reindex s input).episodes =
      rewriteStream (dedupSorted input) s.episodes := by
  rw [remove_and_reindex]
  simp only [renamePhase, foldl_renameStep_episodes, removeFiles_eq]

lemma remove_and_reindex_episodesStats {α β : Type} (s : DState α β)
    (input : List ℕ) :
    (remove_and_reindex s input).episodesStats =
      rewriteStream (dedupSorted input) s.episodesStats := by
  rw [remove_and_reindex]
  simp only [renamePhase, foldl_renameStep_episodesStats, removeFiles_eq]

lemma remove_and_reindex_data {α β : Type} (s : DState α β) (input : List ℕ) :
    (remove_and_reindex s input).data =
      (renamePhase (dedupSorted input) (removeFiles (dedupSorted input) s)).data :=
  rfl

/-! ### Keys across a rename -/

lemma mem_keys_renameFile {d : Dir} {src dst x : ℕ} :
    x ∈ keys (renameFile d src dst) ↔
      (x ∈ keys d ∧ x ≠ src ∧ x ≠ dst) ∨ (x = dst ∧ src ∈ keys d) := by
  simp only [mem_keys, renameFile, List.mem_append, List.mem_filter,
    List.mem_map, Prod.exists, decide_eq_true_eq]
  constructor
  · rintro ⟨c, h | ⟨a, b, ⟨hm, ha⟩, heq⟩⟩
    · exact Or.inl ⟨⟨c, h.1⟩, h.2⟩
    · rcases Prod.mk.injEq .. ▸ heq with ⟨h1, h2⟩
      subst ha
      exact Or.inr ⟨h1.symm, b, hm⟩
  · rintro (⟨⟨c, hm⟩, hne⟩ | ⟨rfl, c, hm⟩)
    · exact ⟨c, Or.inl ⟨hm, hne⟩⟩
    · exact ⟨c, Or.inr ⟨src, c, ⟨hm, rfl⟩, rfl⟩⟩

/-- The invariant of the rename loop: starting from a directory whose
keys split into an already-remapped low part `A`, the sorted list `L`
still to process, and an untouched high part `E`, the fold remaps
exactly the `L`-part.  The source iterates in ascending filename order,
which is what makes every rename land on a vacant name. -/
lemma renameFold_keys {α β : Type} {R : List ℕ} (hnd : R.Nodup) :
    ∀ (L : List ℕ) (st : DState α β) (A E : Finset ℕ),
      L.Sorted (· < ·) →
      (∀ i ∈ L, i ∉ R) →
      keys st.data = A ∪ L.toFinset ∪ E →
      (∀ a ∈ A, ∀ i ∈ L, a < newIndex R i) →
      (∀ e ∈ E, ∀ i ∈ L, i < e) →
      keys ((L.foldl (renameStep R) st).data)
        = A ∪ L.toFinset.image (newIndex R) ∪ E := by
  intro L
  induction L with
  | nil =>
    intro st A E _ _ hkeys _ _
    simpa using hkeys
  | cons idx l ih =>
    intro st A E hsort hR hkeys hA hE
    rw [List.sorted_cons] at hsort
    obtain ⟨hlt, hsortl⟩ := hsort
    have hidxR : idx ∉ R := hR idx (List.mem_cons_self idx l)
    have hmono : ∀ i ∈ l, newIndex R idx < newIndex R i := fun i hi =>
      newIndex_lt_of_lt hnd hidxR (hlt i hi)
    rw [List.foldl_cons]
    by_cases hm : newIndex R idx = idx
    · have hstep : renameStep R st idx = st := by
        rw [renameStep]
        simp [hm]
      rw [hstep]
      have := ih st (insert idx A) E hsortl (fun i hi => hR i (List.mem_cons_of_mem _ hi))
        (by
          rw [hkeys]
          ext x
          simp only [Finset.mem_union, Finset.mem_insert, List.toFinset_cons]
          tauto)
        (by
          intro a ha i hi
          rcases Finset.mem_insert.mp ha with rfl | ha'
          · exact hm ▸ hmono i hi
          · exact hA a ha' i (List.mem_cons_of_mem _ hi))
        (fun e he i hi => hE e he i (List.mem_cons_of_mem _ hi))
      rw [this]
      ext x
      simp only [Finset.mem_union, Finset.mem_insert, List.toFinset_cons,
        Finset.image_insert, hm]
      tauto
    · have hmlt : newIndex R idx < idx :=
        lt_of_le_of_ne (newIndex_le_self R idx) hm
      have hidxmem : idx ∈ keys st.data := by
        rw [hkeys]
        simp
      have hmnot : newIndex R idx ∉ keys st.data := by
        rw [hkeys]
        simp only [Finset.mem_union, List.toFinset_cons, Finset.mem_insert,
          List.mem_toFinset]
        rintro ((hAm | hm' | hml) | hEm)
        · exact absurd (hA _ hAm idx (List.mem_cons_self idx l)) (lt_irrefl _)
        · exact hm hm'
        · exact absurd (hlt _ hml) (not_lt_of_gt hmlt)
        · exact absurd (hE _ hEm idx (List.mem_cons_self idx l))
            (not_lt_of_gt hmlt)
      have hdata : (renameStep R st idx).data =
          renameFile st.data idx (newIndex R idx) := by
        rw [renameStep]
        simp [hm]
      have hkeys' : keys (renameFile st.data idx (newIndex R idx))
          = insert (newIndex R idx) A ∪ l.toFinset ∪ E := by
        ext x
        rw [mem_keys_renameFile]
        constructor
        · rintro (⟨hx, hne1, hne2⟩ | ⟨rfl, _⟩)
          · rw [hkeys] at hx
            simp only [Finset.mem_union, List.toFinset_cons, Finset.mem_insert,
              List.mem_toFinset] at hx
            simp only [Finset.mem_union, Finset.mem_insert, List.mem_toFinset]
            rcases hx with (hA' | hx' | hl') | hE'
            · exact Or.inl (Or.inl (Or.inr hA'))
            · exact absurd hx' hne1
            · exact Or.inl (Or.inr hl')
            · exact Or.inr hE'
          · simp
        · intro hx
          simp only [Finset.mem_union, Finset.mem_insert, List.mem_toFinset] at hx
          rcases hx with ((rfl | hA') | hl') | hE'
          · exact Or.inr ⟨rfl, hidxmem⟩
          · have hxm : x < newIndex R idx :=
              hA x hA' idx (List.mem_cons_self idx l)
            refine Or.inl ⟨?_, ?_, ?_⟩
            · rw [hkeys]
              simp only [Finset.mem_union]
              exact Or.inl (Or.inl hA')
            · exact Nat.ne_of_lt (lt_trans hxm hmlt)
            · exact Nat.ne_of_lt hxm
          · have hix : idx < x := hlt x hl'
            refine Or.inl ⟨?_, ?_, ?_⟩
            · rw [hkeys]
              simp only [Finset.mem_union, List.toFinset_cons, Finset.mem_insert,
                List.mem_toFinset]
              exact Or.inl (Or.inr (Or.inr hl'))
            · exact Nat.ne_of_gt hix
            · exact Nat.ne_of_gt (lt_trans hmlt hix)
          · have hix : idx < x := hE x hE' idx (List.mem_cons_self idx l)
            refine Or.inl ⟨?_, ?_, ?_⟩
            · rw [hkeys]
              simp only [Finset.mem_union]
              exact Or.inr hE'
            · exact Nat.ne_of_gt hix
            · exact Nat.ne_of_gt (lt_trans hmlt hix)
      have hrec := ih (renameStep R st idx) (insert (newIndex R idx) A) E hsortl
        (fun i hi => hR i (List.mem_cons_of_mem _ hi))
        (by rw [hdata]; exact hkeys')
        (by
          intro a ha i hi
          rcases Finset.mem_insert.mp ha with rfl | ha'
          · exact hmono i hi
          · exact hA a ha' i (List.mem_cons_of_mem _ hi))
        (fun e he i hi => hE e he i (List.mem_cons_of_mem _ hi))
      rw [hrec, List.toFinset_cons, Finset.image_insert]
      simp only [Finset.insert_union, Finset.union_insert]

/-! ### Helper lemmas for the directory listing -/

lemma keys_filter_notmem (d : Dir) (removal : List ℕ) :
    keys (d.filter (fun p => p.1 ∉ removal)) = keys d \ removal.toFinset := by
  ext x
  simp only [mem_keys, Finset.mem_sdiff, List.mem_filter, List.mem_toFinset,
    decide_eq_true_eq]
  constructor
  · rintro ⟨c, hm, hn⟩
    exact ⟨⟨c, hm⟩, hn⟩
  · rintro ⟨⟨c, hm⟩, hn⟩
    exact ⟨c, hm, hn⟩

lemma keyList_filter_nodup (d : Dir) (q : ℕ × ℕ → Bool)
    (h : (keyList d).Nodup) : (keyList (d.filter q)).Nodup := by
  have hsub : (d.filter q).Sublist d := List.filter_sublist d
  exact (hsub.map Prod.fst).nodup h

lemma allIndices_toFinset {α β : Type} (st : DState α β) :
    (allIndices st).toFinset = keys st.data :=
  List.toFinset_eq_of_perm _ _ (List.perm_insertionSort _ _)

lemma allIndices_sorted_lt {α β : Type} (st : DState α β)
    (h : (keyList st.data).Nodup) : (allIndices st).Sorted (· < ·) :=
  (List.sorted_insertionSort _ _).lt_of_le
    ((List.perm_insertionSort _ _).nodup_iff.mpr h)

/-! ### The image of the survivors under the remap is an initial segment -/

lemma image_newIndex_sdiff {removal : List ℕ} (hnd : removal.Nodup) (M : ℕ) :
    ((Finset.range M) \ removal.toFinset).image (newIndex removal)
      = Finset.range (newIndex removal M) := by
  apply Finset.eq_of_subset_of_card_le
  · intro x hx
    simp only [Finset.mem_image, Finset.mem_sdiff, Finset.mem_range,
      List.mem_toFinset] at hx
    obtain ⟨i, ⟨hiM, hiR⟩, rfl⟩ := hx
    exact Finset.mem_range.mpr (newIndex_lt_of_lt hnd hiR hiM)
  · have hinj : Set.InjOn (newIndex removal)
        ((Finset.range M) \ removal.toFinset : Finset ℕ) := by
      intro i hi j hj hij
      simp only [Finset.coe_sdiff, Set.mem_diff, Finset.mem_coe,
        Finset.mem_range, List.coe_toFinset, Set.mem_setOf_eq] at hi hj
      exact newIndex_injOn hnd hi.2 hj.2 hij
    rw [Finset.card_image_of_injOn hinj, Finset.card_range]
    have hcard : ((Finset.range M) \ removal.toFinset).card
        = M - (removal.toFinset.filter (· < M)).card := by
      have h1 : Finset.range M ∩ removal.toFinset
          = removal.toFinset.filter (· < M) := by
        ext x
        simp only [Finset.mem_inter, Finset.mem_range, Finset.mem_filter]
        tauto
      have h2 := Finset.card_sdiff_add_card_inter (Finset.range M)
        removal.toFinset
      rw [h1, Finset.card_range] at h2
      omega
    rw [hcard, newIndex, decrement_eq_card hnd]

/-- When every present index survived deletion, the rename loop maps the
key set to its image under the remap. -/
lemma renamePhase_keys {α β : Type} (removal : List ℕ) (hnd : removal.Nodup)
    (st : DState α β) (hw : (keyList st.data).Nodup)
    (hR : ∀ i ∈ keys st.data, i ∉ removal) :
    keys (renamePhase removal st).data = (keys st.data).image (newIndex removal) := by
  have h := renameFold_keys hnd (allIndices st) st ∅ ∅
    (allIndices_sorted_lt st hw)
    (fun i hi => hR i (by rw [← allIndices_toFinset]; exact List.mem_toFinset.mpr hi))
    (by rw [allIndices_toFinset]; simp)
    (by simp)
    (by simp)
  rw [renamePhase, h, allIndices_toFinset]
  simp

/-- C1: for a dataset whose tabular files initially encode the dense
index set `{0, ..., M-1}` (a real directory, so filenames are distinct)
and any removal list, the surviving tabular filenames after
`remove_and_reindex` encode exactly `{0, ..., N-1}` where `N` is `M`
minus the number of removed indices that were present. -/
theorem C1_index_density {α β : Type} (M : ℕ) (input : List ℕ)
    (s : DState α β) (hw : (keyList s.data).Nodup)
    (hdense : keys s.data = Finset.range M) :
    keys (remove_and_reindex s input).data
      = Finset.range (M - (input.toFinset.filter (· < M)).card) := by
  have hnd := dedupSorted_nodup input
  rw [remove_and_reindex_data]
  have hdataDel : (removeFiles (dedupSorted input) s).data
      = s.data.filter (fun p => p.1 ∉ dedupSorted input) := by
    rw [removeFiles_eq]
  have hkeys1 : keys (removeFiles (dedupSorted input) s).data
      = Finset.range M \ input.toFinset := by
    rw [hdataDel, keys_filter_notmem, hdense, dedupSorted_toFinset]
  have hw1 : (keyList (removeFiles (dedupSorted input) s).data).Nodup := by
    rw [hdataDel]
    exact keyList_filter_nodup _ _ hw
  have hR1 : ∀ i ∈ keys (removeFiles (dedupSorted input) s).data,
      i ∉ dedupSorted input := by
    intro i hi hmem
    rw [hkeys1] at hi
    have hin : i ∈ input.toFinset := by
      rw [← dedupSorted_toFinset]
      exact List.mem_toFinset.mpr hmem
    exact (Finset.mem_sdiff.mp hi).2 hin
  rw [renamePhase_keys _ hnd _ hw1 hR1, hkeys1, ← dedupSorted_toFinset input,
    image_newIndex_sdiff hnd, newIndex, decrement_eq_card hnd,
    dedupSorted_toFinset]

/-- Witness for C1 at a concrete dense dataset of five episodes with
removal list `[1, 3]`. -/
theorem C1_index_density_witness :
    keys (remove_and_reindex sampleC1 [1, 3]).data
      = Finset.range (5 - ((([1, 3] : List ℕ).toFinset.filter (· < 5)).card)) :=
  C1_index_density 5 [1, 3] sampleC1 (by decide) (by decide)

/-- C3: the `total_episodes` counter decreases by exactly the number of
distinct indices in the input removal list, for every dataset state and
every input list; duplicates are not double-counted. -/
theorem C3_total_episodes_counter {α β : Type} (s : DState α β)
    (input : List ℕ) :
    (remove_and_reindex s input).total_episodes
      = s.total_episodes - input.toFinset.card := by
  rw [remove_and_reindex_total, dedupSorted_length]

/-- C7: for a fixed removal list, the decrement formula is monotone
non-decreasing in the index. -/
theorem C7_decrement_monotone (removal : List ℕ) (i j : ℕ) (h : i ≤ j) :
    decrement removal i ≤ decrement removal j :=
  decrement_mono removal h

/-- Witness for C7 on the removal list `[1, 3]` at indices `2 ≤ 4`. -/
theorem C7_decrement_monotone_witness :
    decrement [1, 3] 2 ≤ decrement [1, 3] 4 :=
  C7_decrement_monotone [1, 3] 2 4 (by decide)

/-! ### The metadata rewrite -/

lemma rewriteStream_eq {α : Type} (input : List ℕ) (stream : List (ℕ × α)) :
    rewriteStream (dedupSorted input) stream
      = (stream.filter (fun e => e.1 ∉ input.toFinset)).map
          (fun e => (e.1 - (input.toFinset.filter (· < e.1)).card, e.2)) := by
  induction stream with
  | nil => rfl
  | cons e t ih =>
    by_cases h : e.1 ∈ input
    · have h' : e.1 ∈ dedupSorted input := mem_dedupSorted.mpr h
      simpa [rewriteStream, List.filterMap_cons, List.filter_cons, h', h]
        using ih
    · have h' : e.1 ∉ dedupSorted input := fun hc => h (mem_dedupSorted.mp hc)
      have hdec : newIndex (dedupSorted input) e.1
          = e.1 - (input.toFinset.filter (· < e.1)).card := by
        rw [newIndex, decrement_eq_card (dedupSorted_nodup input),
          dedupSorted_toFinset]
      simpa [rewriteStream, List.filterMap_cons, List.filter_cons, h', h, hdec]
        using ih

/-- C2: for both metadata streams, the run drops exactly the records
whose `episode_index` is in the removal set, renumbers each kept record
by subtracting the count of removed indices strictly below it, preserves
every other field (the payload), and keeps the relative order of the
kept records (the result is a `filter` followed by an index-only
`map`). -/
theorem C2_metadata_rewrite {α β : Type} (s : DState α β) (input : List ℕ) :
    (remove_and_reindex s input).episodes
        = (s.episodes.filter (fun e => e.1 ∉ input.toFinset)).map
            (fun e => (e.1 - (input.toFinset.filter (· < e.1)).card, e.2))
      ∧ (remove_and_reindex s input).episodesStats
        = (s.episodesStats.filter (fun e => e.1 ∉ input.toFinset)).map
            (fun e => (e.1 - (input.toFinset.filter (· < e.1)).card, e.2)) := by
  constructor
  · rw [remove_and_reindex_episodes, rewriteStream_eq]
  · rw [remove_and_reindex_episodesStats, rewriteStream_eq]

/-- C8: two input removal lists with the same underlying set of indices
(any order, any multiplicities) produce identical final states from the
same initial state. -/
theorem C8_removal_input_is_a_set {α β : Type} (s : DState α β)
    (input1 input2 : List ℕ) (h : input1.toFinset = input2.toFinset) :
    remove_and_reindex s input1 = remove_and_reindex s input2 := by
  have hds : dedupSorted input1 = dedupSorted input2 :=
    List.eq_of_perm_of_sorted
      (List.perm_of_nodup_nodup_toFinset_eq (dedupSorted_nodup _)
        (dedupSorted_nodup _)
        (by rw [dedupSorted_toFinset, dedupSorted_toFinset, h]))
      (dedupSorted_sorted _) (dedupSorted_sorted _)
  rw [remove_and_reindex, remove_and_reindex, hds]

/-- Witness for C8: `[1, 1, 5]` and `[5, 1]` carry the same set and give
the same final state on a concrete dataset. -/
theorem C8_removal_input_is_a_set_witness :
    remove_and_reindex sampleC1 [1, 1, 5] = remove_and_reindex sampleC1 [5, 1] :=
  C8_removal_input_is_a_set sampleC1 [1, 1, 5] [5, 1] (by decide)

/-- C5: on any set `S` of surviving (non-removed) indices — the tabular
directory after deletion — the remap `i ↦ i - decrement(i)` is injective,
and during the ascending-order rename loop no rename destination is
occupied at the moment of the rename: after processing any prefix `l1` of
the sorted listing, the destination of the next effective rename is
absent from the directory. -/
theorem C5_no_rename_collision {α β : Type} (input : List ℕ) (S : Finset ℕ)
    (st : DState α β)
    (hsurv : ∀ i ∈ S, i ∉ input.toFinset)
    (hkeys : keys st.data = S)
    (hw : (keyList st.data).Nodup) :
    (∀ i ∈ S, ∀ j ∈ S,
        newIndex (dedupSorted input) i = newIndex (dedupSorted input) j → i = j)
      ∧ ∀ l1 idx l2, allIndices st = l1 ++ idx :: l2 →
          newIndex (dedupSorted input) idx ≠ idx →
          newIndex (dedupSorted input) idx
            ∉ keys ((l1.foldl (renameStep (dedupSorted input)) st).data) := by
  have hnd := dedupSorted_nodup input
  have notR : ∀ i ∈ S, i ∉ dedupSorted input := fun i hi hmem =>
    hsurv i hi (List.mem_toFinset.mpr (mem_dedupSorted.mp hmem))
  constructor
  · intro i hi j hj
    exact newIndex_injOn hnd (notR i hi) (notR j hj)
  · intro l1 idx l2 hsplit hne
    have hsorted := allIndices_sorted_lt st hw
    rw [hsplit, List.Sorted, List.pairwise_append] at hsorted
    obtain ⟨hs1, hs2, hcross⟩ := hsorted
    have hmemS : ∀ i ∈ l1 ++ idx :: l2, i ∈ S := by
      intro i hi
      rw [← hkeys, ← allIndices_toFinset, hsplit]
      exact List.mem_toFinset.mpr hi
    have hidxS : idx ∈ S :=
      hmemS idx (List.mem_append_right _ (List.mem_cons_self idx l2))
    have hfold := renameFold_keys hnd l1 st ∅ ((idx :: l2).toFinset) hs1
      (fun i hi => notR i (hmemS i (List.mem_append_left _ hi)))
      (by
        rw [← allIndices_toFinset st, hsplit, List.toFinset_append]
        simp)
      (by simp)
      (fun e he i hi => hcross i hi e (List.mem_toFinset.mp he))
    rw [hfold]
    have hmlt : newIndex (dedupSorted input) idx < idx :=
      lt_of_le_of_ne (newIndex_le_self _ idx) hne
    simp only [Finset.empty_union, Finset.mem_union, Finset.mem_image,
      List.mem_toFinset, List.toFinset_cons, Finset.mem_insert]
    rintro (⟨j, hj, hmap⟩ | hidx' | hl2)
    · have hjS : j ∈ S := hmemS j (List.mem_append_left _ hj)
      have hjlt : j < idx :=
        hcross j hj idx (List.mem_cons_self idx l2)
      exact absurd (newIndex_injOn hnd (notR j hjS) (notR idx hidxS) hmap)
        (Nat.ne_of_lt hjlt)
    · exact hne hidx'
    · rw [List.pairwise_cons] at hs2
      exact absurd (hs2.1 _ hl2) (not_lt_of_gt hmlt)

/-- Witness for C5 on survivors `{0, 2, 4}` with removal list `[1, 3]`:
instantiating the no-clobber half after the prefix `[0]` at index `2`. -/
theorem C5_no_rename_collision_witness :
    newIndex (dedupSorted [1, 3]) 2
      ∉ keys (([0].foldl (renameStep (dedupSorted [1, 3])) sampleC5).data) :=
  (C5_no_rename_collision [1, 3] {0, 2, 4} sampleC5 (by decide) (by decide)
      (by decide)).2 [0] 2 [4] (by decide) (by decide)

/-- C6: the worked example of the spec.  On the dense dataset
`{0,1,2,3,4}` with removal list `[1,3]`: old 0 maps to 0, old 2 to 1,
old 4 to 2; the tabular and both camera-view directories are renamed by
that same mapping (content tags follow their index); `episodes.jsonl`
retains exactly 3 records with indices 0, 1, 2 in their original
relative order; `total_episodes` decreases by 2. -/
theorem C6_worked_example :
    newIndex (dedupSorted [1, 3]) 0 = 0
      ∧ newIndex (dedupSorted [1, 3]) 2 = 1
      ∧ newIndex (dedupSorted [1, 3]) 4 = 2
      ∧ (remove_and_reindex sampleC1 [1, 3]).data.toFinset
          = {(0, 10), (1, 12), (2, 14)}
      ∧ (remove_and_reindex sampleC1 [1, 3]).laptop.toFinset
          = {(0, 20), (1, 22), (2, 24)}
      ∧ (remove_and_reindex sampleC1 [1, 3]).phone.toFinset
          = {(0, 30), (1, 32), (2, 34)}
      ∧ (remove_and_reindex sampleC1 [1, 3]).episodes
          = [(0, 40), (1, 42), (2, 44)]
      ∧ (remove_and_reindex sampleC1 [1, 3]).total_episodes
          = sampleC1.total_episodes - 2 := by
  decide

/-! ### Identity of the rename loop when nothing is displaced -/

lemma foldl_renameStep_id {α β : Type} (R : List ℕ) :
    ∀ (L : List ℕ) (st : DState α β), (∀ idx ∈ L, newIndex R idx = idx) →
      L.foldl (renameStep R) st = st := by
  intro L
  induction L with
  | nil => intro st _; rfl
  | cons idx l ih =>
    intro st h
    rw [List.foldl_cons]
    have hstep : renameStep R st idx = st := by
      rw [renameStep]
      simp [h idx (List.mem_cons_self idx l)]
    rw [hstep]
    exact ih st (fun i hi => h i (List.mem_cons_of_mem _ hi))

/-- C9 counterexample: on a gapped tabular directory `{0, 2}`, removing
the absent index 1 raises no error but silently renames episode 2 to 1 —
the numbering of another episode changes even though nothing was
deleted. -/
theorem C9_noop_skip_counterexample :
    (∀ i ∈ ([1] : List ℕ), i ∉ keys sampleC9gap.data)
      ∧ 2 ∈ keys sampleC9gap.data
      ∧ 2 ∉ keys (remove_and_reindex sampleC9gap [1]).data
      ∧ (remove_and_reindex sampleC9gap [1]).data ≠ sampleC9gap.data := by
  decide

/-- C9 as amended: on a dataset whose tabular indices are dense
`{0, ..., M-1}`, removing only indices with no tabular file on disk
leaves the tabular directory untouched and every surviving video file at
its original index; video files at removed indices are deleted, missing
files are skipped. -/
theorem C9_noop_skip_amended {α β : Type} (M : ℕ) (s : DState α β)
    (input : List ℕ)
    (hdense : keys s.data = Finset.range M)
    (habsent : ∀ i ∈ input, i ∉ keys s.data) :
    (remove_and_reindex s input).data = s.data
      ∧ (remove_and_reindex s input).laptop
          = s.laptop.filter (fun p => p.1 ∉ input.toFinset)
      ∧ (remove_and_reindex s input).phone
          = s.phone.filter (fun p => p.1 ∉ input.toFinset) := by
  have hge : ∀ r ∈ dedupSorted input, M ≤ r := by
    intro r hr
    have hrin : r ∈ input := mem_dedupSorted.mp hr
    have := habsent r hrin
    rw [hdense, Finset.mem_range] at this
    omega
  have hdataDel : (removeFiles (dedupSorted input) s).data = s.data := by
    rw [removeFiles_eq]
    show List.filter _ _ = _
    apply List.filter_eq_self.mpr
    intro p hp
    have hkey : p.1 ∈ keys s.data := mem_keys.mpr ⟨p.2, hp⟩
    rw [hdense, Finset.mem_range] at hkey
    simp only [decide_eq_true_eq]
    intro hmem
    exact absurd hkey (not_lt_of_ge (hge p.1 hmem))
  have hid : ∀ idx ∈ allIndices (removeFiles (dedupSorted input) s),
      newIndex (dedupSorted input) idx = idx := by
    intro idx hidx
    have hkey : idx ∈ keys (removeFiles (dedupSorted input) s).data := by
      rw [← allIndices_toFinset]
      exact List.mem_toFinset.mpr hidx
    rw [hdataDel, hdense, Finset.mem_range] at hkey
    have hdec : decrement (dedupSorted input) idx = 0 := by
      rw [decrement]
      have : (dedupSorted input).filter (fun r => r < idx) = [] := by
        apply List.filter_eq_nil_iff.mpr
        intro r hr
        simp only [decide_eq_true_eq, not_lt]
        exact le_trans (le_of_lt hkey) (hge r hr)
      rw [this]
      rfl
    rw [newIndex, hdec]
    exact Nat.sub_zero idx
  have hphase : renamePhase (dedupSorted input) (removeFiles (dedupSorted input) s)
      = removeFiles (dedupSorted input) s :=
    foldl_renameStep_id _ _ _ hid
  have hfilter : ∀ d : Dir,
      d.filter (fun p => p.1 ∉ dedupSorted input)
        = d.filter (fun p => p.1 ∉ input.toFinset) := by
    intro d
    apply List.filter_congr
    intro p _
    simp [mem_dedupSorted]
  refine ⟨?_, ?_, ?_⟩
  · rw [remove_and_reindex_data, hphase, hdataDel]
  · show (renamePhase _ (removeFiles _ s)).laptop = _
    rw [hphase, removeFiles_eq]
    exact hfilter s.laptop
  · show (renamePhase _ (removeFiles _ s)).phone = _
    rw [hphase, removeFiles_eq]
    exact hfilter s.phone

/-- Witness for the amended C9: removing the absent indices 7 and 9 from
the dense five-episode dataset leaves every file in place. -/
theorem C9_noop_skip_amended_witness :
    (remove_and_reindex sampleC1 [7, 9]).data = sampleC1.data
      ∧ (remove_and_reindex sampleC1 [7, 9]).laptop
          = sampleC1.laptop.filter (fun p => p.1 ∉ ([7, 9] : List ℕ).toFinset)
      ∧ (remove_and_reindex sampleC1 [7, 9]).phone
          = sampleC1.phone.filter (fun p => p.1 ∉ ([7, 9] : List ℕ).toFinset) :=
  C9_noop_skip_amended 5 sampleC1 [7, 9] (by decide) (by decide)

/-! ### Preservation of the file at a fixed index across the run -/

lemma filter_key_filter (d : Dir) (q : ℕ × ℕ → Bool) (v : ℕ)
    (hq : ∀ c, q (v, c) = true) :
    (d.filter q).filter (fun p => p.1 = v) = d.filter (fun p => p.1 = v) := by
  induction d with
  | nil => rfl
  | cons p t ih =>
    by_cases hpv : p.1 = v
    · have hq' : q p = true := by
        have hp : p = (v, p.2) := by
          rw [← hpv]
        exact hp ▸ hq p.2
      simp [List.filter_cons, hq', hpv, ih]
    · by_cases hqp : q p = true
      · simp [List.filter_cons, hqp, hpv, ih]
      · rw [List.filter_cons, List.filter_cons]
        simp only [hqp, hpv]
        simpa [hqp, hpv] using ih

lemma filter_key_map_nil (l : Dir) (dst v : ℕ) (hdst : dst ≠ v) :
    ((l.map (fun p => (dst, p.2))).filter (fun p => p.1 = v)) = [] := by
  induction l with
  | nil => rfl
  | cons p t ih =>
    simpa [List.filter_cons, hdst] using ih

lemma filter_key_renameIfExists (d : Dir) (src dst v : ℕ) (hsrc : src ≠ v)
    (hdst : dst ≠ v) :
    (renameIfExists d src dst).filter (fun p => p.1 = v)
      = d.filter (fun p => p.1 = v) := by
  rw [renameIfExists]
  split
  · rw [renameFile, List.filter_append, filter_key_map_nil _ _ _ hdst,
      List.append_nil]
    apply filter_key_filter
    intro c
    simp [Ne.symm hsrc, Ne.symm hdst]
  · rfl

lemma foldl_renameStep_filter_key {α β : Type} (R : List ℕ) (v : ℕ) :
    ∀ (L : List ℕ) (st : DState α β),
      (∀ idx ∈ L, idx ≠ v ∧ newIndex R idx ≠ v) →
      (L.foldl (renameStep R) st).laptop.filter (fun p => p.1 = v)
          = st.laptop.filter (fun p => p.1 = v)
        ∧ (L.foldl (renameStep R) st).phone.filter (fun p => p.1 = v)
          = st.phone.filter (fun p => p.1 = v) := by
  intro L
  induction L with
  | nil => intro st _; exact ⟨rfl, rfl⟩
  | cons idx l ih =>
    intro st h
    obtain ⟨hidx, hmap⟩ := h idx (List.mem_cons_self idx l)
    have htail := ih (renameStep R st idx)
      (fun i hi => h i (List.mem_cons_of_mem _ hi))
    rw [List.foldl_cons]
    have hlap : (renameStep R st idx).laptop.filter (fun p => p.1 = v)
        = st.laptop.filter (fun p => p.1 = v) := by
      rw [renameStep]
      split
      · exact filter_key_renameIfExists _ _ _ _ hidx hmap
      · rfl
    have hpho : (renameStep R st idx).phone.filter (fun p => p.1 = v)
        = st.phone.filter (fun p => p.1 = v) := by
      rw [renameStep]
      split
      · exact filter_key_renameIfExists _ _ _ _ hidx hmap
      · rfl
    exact ⟨htail.1.trans hlap, htail.2.trans hpho⟩

/-- C10 counterexample: in a dataset with tabular files `{0, 2}` and a
laptop video at index 1 (no tabular counterpart, not in the removal
set `[0]`), the run renames the video of episode 2 onto index 1 and the
original file content at index 1 is destroyed — it is not left
untouched. -/
theorem C10_video_untouched_counterexample :
    1 ∉ keys sampleC10.data
      ∧ (1 : ℕ) ∉ ([0] : List ℕ)
      ∧ (1, 201) ∈ sampleC10.laptop
      ∧ (1, 201) ∉ (remove_and_reindex sampleC10 [0]).laptop
      ∧ (1, 202) ∈ (remove_and_reindex sampleC10 [0]).laptop := by
  decide

/-- C10 as amended: a video file at an index `v` with no tabular file,
not in the removal set, is never itself deleted or renamed; provided
additionally that no surviving tabular index is remapped onto `v`, the
file at `v` (in either camera-view directory) is left entirely
untouched.  The counterexample above shows the extra proviso is
necessary: without it the file can be overwritten as a rename
destination. -/
theorem C10_video_untouched_amended {α β : Type} (s : DState α β)
    (input : List ℕ) (v : ℕ)
    (hnotab : v ∉ keys s.data)
    (hnorem : v ∉ input.toFinset)
    (hnotarget : ∀ u ∈ keys s.data, u ∉ input.toFinset →
        newIndex (dedupSorted input) u ≠ v) :
    (remove_and_reindex s input).laptop.filter (fun p => p.1 = v)
        = s.laptop.filter (fun p => p.1 = v)
      ∧ (remove_and_reindex s input).phone.filter (fun p => p.1 = v)
        = s.phone.filter (fun p => p.1 = v) := by
  have hvR : v ∉ dedupSorted input := fun hc =>
    hnorem (List.mem_toFinset.mpr (mem_dedupSorted.mp hc))
  have hdel : ∀ d : Dir,
      (d.filter (fun p => p.1 ∉ dedupSorted input)).filter (fun p => p.1 = v)
        = d.filter (fun p => p.1 = v) := by
    intro d
    apply filter_key_filter
    intro c
    simp [hvR]
  have hcond : ∀ idx ∈ allIndices (removeFiles (dedupSorted input) s),
      idx ≠ v ∧ newIndex (dedupSorted input) idx ≠ v := by
    intro idx hidx
    have hkey : idx ∈ keys (removeFiles (dedupSorted input) s).data := by
      rw [← allIndices_toFinset]
      exact List.mem_toFinset.mpr hidx
    have hdata : (removeFiles (dedupSorted input) s).data
        = s.data.filter (fun p => p.1 ∉ dedupSorted input) := by
      rw [removeFiles_eq]
    rw [hdata, keys_filter_notmem, dedupSorted_toFinset] at hkey
    obtain ⟨hkeyS, hnotrem⟩ := Finset.mem_sdiff.mp hkey
    refine ⟨fun hc => hnotab (hc ▸ hkeyS), ?_⟩
    exact hnotarget idx hkeyS hnotrem
  have hfold := foldl_renameStep_filter_key (dedupSorted input) v
    (allIndices (removeFiles (dedupSorted input) s))
    (removeFiles (dedupSorted input) s) hcond
  have hlapDel : (removeFiles (dedupSorted input) s).laptop
      = s.laptop.filter (fun p => p.1 ∉ dedupSorted input) := by
    rw [removeFiles_eq]
  have hphoDel : (removeFiles (dedupSorted input) s).phone
      = s.phone.filter (fun p => p.1 ∉ dedupSorted input) := by
    rw [removeFiles_eq]
  constructor
  · show (renamePhase _ (removeFiles _ s)).laptop.filter _ = _
    rw [renamePhase, hfold.1, hlapDel, hdel]
  · show (renamePhase _ (removeFiles _ s)).phone.filter _ = _
    rw [renamePhase, hfold.2, hphoDel, hdel]

/-- Witness for the amended C10: the laptop video at index 5 (no tabular
file, not removed, not a rename target) is untouched by removing
episode 0. -/
theorem C10_video_untouched_amended_witness :
    (remove_and_reindex sampleC10 [0]).laptop.filter (fun p => p.1 = 5)
        = sampleC10.laptop.filter (fun p => p.1 = 5)
      ∧ (remove_and_reindex sampleC10 [0]).phone.filter (fun p => p.1 = 5)
        = sampleC10.phone.filter (fun p => p.1 = 5) :=
  C10_video_untouched_amended sampleC10 [0] 5 (by decide) (by decide)
    (by decide)

/-- C4 counterexample: with removal list `[1, 1, 5]` where episode 1 is
on disk and index 5 is absent from every directory, `total_episodes`
does not decrease by 1: the counter is decremented by the number of
distinct input indices whether or not they are present. -/
theorem C4_absent_index_counterexample :
    1 ∈ keys sampleC4.data
      ∧ 5 ∉ keys sampleC4.data
      ∧ 5 ∉ keys sampleC4.laptop
      ∧ 5 ∉ keys sampleC4.phone
      ∧ (remove_and_reindex sampleC4 [1, 1, 5]).total_episodes
          ≠ sampleC4.total_episodes - 1 := by
  decide

/-- C4 as amended: with removal list `[1, 1, 5]` where 5 is absent on
disk, only episode 1's files are actually deleted (the duplicate and the
absent 5 are no-ops on disk), the survivors are renumbered to `{0, 1}`,
but `total_episodes` decreases by 2 — the number of distinct indices in
the input list, counting also indices absent on disk. -/
theorem C4_absent_index_amended :
    (remove_and_reindex sampleC4 [1, 1, 5]).total_episodes
        = sampleC4.total_episodes - 2
      ∧ keys (remove_and_reindex sampleC4 [1, 1, 5]).data = {0, 1}
      ∧ (remove_and_reindex sampleC4 [1, 1, 5]).laptop = []
      ∧ (remove_and_reindex sampleC4 [1, 1, 5]).episodes = [(0, 40), (1, 42)] := by
  decide

end LeRobot
